import Mathlib

/-!
Verification of the FibJule repository core: four Fibonacci strategies over
arbitrary-precision integers (math/big), a scratch allocator (sync.Pool) whose
acquire/release traffic we instrument with counters, cooperative cancellation
(context.Context), progress reporting, and the result reconciler.

Modelling conventions:
- A Go big.Int value is an integer in ZZ; in-place mutation becomes value passing.
- The cancellation context is a function from poll index to Bool: ctx t = true
  means the t-th cancellation poll observes a cancelled context.  The uncancelled
  context (context.Background) is bgCtx, a pre-cancelled context is any ctx with
  ctx 0 = true.
- pool.Get and pool.Put calls are counted in the gets and puts fields; a Go
  defer of pool.Put runs on every return path after its registration point,
  so each return path adds the deferred puts registered so far.
- Progress events carry the percentage as an exact rational; the Go float64
  expressions are images of these rationals under correctly-rounded operations.
- fibBinet uses math/big Float: binary floating point with a given mantissa
  precision and round-to-nearest-even; modelled exactly by dyadic rationals.
-/

/-- Errors a strategy can return: the invalid-index error for n < 0, and the
context cancellation error (ctx.Err()). -/
inductive GoError where
  | invalidIndex : GoError
  | cancelled : GoError
deriving DecidableEq, Repr

/-- The instrumented outcome of one strategy invocation:
value and err model the Go return pair (value is none exactly when the Go
function returns nil), gets/puts count pool.Get/pool.Put calls over the whole
invocation, iters counts completed outer-loop iterations, events is the list
of progress percentages sent to a non-nil progress channel. -/
structure FibResult where
  value : Option ℤ
  err : Option GoError
  gets : ℕ
  puts : ℕ
  iters : ℕ
  events : List ℚ
deriving Repr

/-- The uncancelled context: context.Background never reports Done. -/
def bgCtx : ℕ → Bool := fun _ => false

/-- A context that is already cancelled before the strategy starts. -/
def doneCtx : ℕ → Bool := fun _ => true

/-- Fuelled bit length: bitLenAux fuel n is the number of binary digits of n
provided n ≤ fuel.  Models Go bits.Len for uint; written with explicit fuel so
that it is structurally recursive and kernel-evaluable. -/
def bitLenAux : ℕ → ℕ → ℕ
  | 0, _ => 0
  | _ + 1, 0 => 0
  | fuel + 1, n + 1 => bitLenAux fuel ((n + 1) / 2) + 1

/-- Number of binary digits of n; bitLen 0 = 0.  Models Go bits.Len. -/
def bitLen (n : ℕ) : ℕ := bitLenAux n n

/-- Loop of fibFastDoubling.  The Go loop runs the bit index i of n from
totalBits-1 down to 0; here rem = i + 1 is the number of iterations left.
Each iteration polls the context (poll index it), computes
t1 = 2*b - a (Lsh then Sub), t2 = a*a, a = a*t1, t1 = b*b, b = t2 + t1,
and if bit i of n is set advances the pair: t1 = a + b, a = b, b = t1.
It then sends the progress percentage (totalBits - i) / totalBits * 100.
Returns none in the first component when a poll observed cancellation. -/
def fdLoop (ctx : ℕ → Bool) (m tb : ℕ) :
    ℕ → ℤ → ℤ → List ℚ → ℕ → Option (ℤ × ℤ) × List ℚ × ℕ
  | 0, a, b, evs, it => (some (a, b), evs, it)
  | rem + 1, a, b, evs, it =>
    if ctx it then (none, evs, it)
    else
      let t1 : ℤ := 2 * b - a
      let t2 : ℤ := a * a
      let a2 : ℤ := a * t1
      let t1b : ℤ := b * b
      let b2 : ℤ := t2 + t1b
      let p : ℤ × ℤ := if (m >>> rem) &&& 1 = 1 then (b2, a2 + b2) else (a2, b2)
      fdLoop ctx m tb rem p.1 p.2
        (evs ++ [(((tb - rem : ℕ) : ℚ) / (tb : ℚ)) * 100]) (it + 1)

/-- fibFastDoubling from the source: rejects n < 0, returns n for n ≤ 1
(with a 100% progress event, not touching the pool), otherwise acquires the
four cells a, b, t1, t2 (4 gets, with deferred puts), runs the doubling loop
over the bits of n from most significant to least significant, and returns a
fresh copy of a; the deferred puts (4) run on both the cancellation return and
the normal return. -/
def fibFastDoubling (ctx : ℕ → Bool) (n : ℤ) : FibResult :=
  if n < 0 then ⟨none, some GoError.invalidIndex, 0, 0, 0, []⟩
  else if n ≤ 1 then ⟨some n, none, 0, 0, 0, [100]⟩
  else
    let m := n.toNat
    let tb := bitLen m
    match fdLoop ctx m tb tb 0 1 [] 0 with
    | (none, evs, it) => ⟨none, some GoError.cancelled, 4, 4, it, evs⟩
    | (some p, evs, it) => ⟨some p.1, none, 4, 4, it, evs ++ [100]⟩

/-- A 2x2 matrix of big.Int values, as in the source type mat2 with entries
a b / c d. -/
@[ext]
structure mat2 where
  a : ℤ
  b : ℤ
  c : ℤ
  d : ℤ
deriving DecidableEq, Repr

/-- mat2.mul from the source: computes the eight products p1..p8 and the four
sums valA..valD into twelve freshly acquired pool cells, then commits them to
the receiver, so the receiver holds the exact matrix product even when it
aliases an operand.  The second and third components count the pool.Get calls
(12) and the deferred pool.Put calls (12) performed inside one mul call. -/
def mat2.mul (m1 m2 : mat2) : mat2 × ℕ × ℕ :=
  (⟨m1.a * m2.a + m1.b * m2.c, m1.a * m2.b + m1.b * m2.d,
    m1.c * m2.a + m1.d * m2.c, m1.c * m2.b + m1.d * m2.d⟩, 12, 12)

instance : One mat2 := ⟨⟨1, 0, 0, 1⟩⟩

instance : Mul mat2 := ⟨fun x y => (mat2.mul x y).1⟩

instance : Monoid mat2 where
  mul_assoc x y z := by
    cases x; cases y; cases z
    show (mat2.mul (mat2.mul _ _).1 _).1 = (mat2.mul _ (mat2.mul _ _).1).1
    simp only [mat2.mul, mat2.mk.injEq]
    refine ⟨by ring, by ring, by ring, by ring⟩
  one_mul x := by
    cases x
    show (mat2.mul ⟨1, 0, 0, 1⟩ _).1 = _
    simp only [mat2.mul, mat2.mk.injEq]
    refine ⟨by ring, by ring, by ring, by ring⟩
  mul_one x := by
    cases x
    show (mat2.mul _ ⟨1, 0, 0, 1⟩).1 = _
    simp only [mat2.mul, mat2.mk.injEq]
    refine ⟨by ring, by ring, by ring, by ring⟩

/-- The base matrix Q = [[1,1],[1,0]] of fibMatrix. -/
def qMat : mat2 := ⟨1, 1, 1, 0⟩

/-- Loop of fibMatrix: binary exponentiation (square and multiply) of the base
matrix, accumulating into res; the loop condition is exp > 0, and fuel is an
upper bound on the remaining iterations (fibMatrix passes bitLen exp, which is
exact, so the fuel-0 branch coincides with the exp-0 exit).  Each iteration
polls the context at poll index i (the Go loop counter), multiplies res by base
when the low bit of exp is set, halves exp, squares base while exp > 0, and
sends min((i+1)/totalSteps*100, 100) when totalSteps > 0.  g and p accumulate
pool.Get / pool.Put counts of the mat2.mul calls.  The first component is none
when a poll observed cancellation. -/
def fmLoop (ctx : ℕ → Bool) (ts : ℕ) :
    ℕ → ℕ → mat2 → mat2 → ℕ → List ℚ → ℕ → ℕ →
    Option mat2 × List ℚ × ℕ × ℕ × ℕ
  | 0, _, res, _, i, evs, g, p => (some res, evs, i, g, p)
  | fuel + 1, exp, res, base, i, evs, g, p =>
    if exp = 0 then (some res, evs, i, g, p)
    else if ctx i then (none, evs, i, g, p)
    else
      let s1 : mat2 × ℕ × ℕ :=
        if exp % 2 = 1 then
          let mr := mat2.mul res base
          (mr.1, g + mr.2.1, p + mr.2.2)
        else (res, g, p)
      let exp2 := exp / 2
      let s2 : mat2 × ℕ × ℕ :=
        if 0 < exp2 then
          let mb := mat2.mul base base
          (mb.1, s1.2.1 + mb.2.1, s1.2.2 + mb.2.2)
        else (base, s1.2.1, s1.2.2)
      let cp : ℚ := (((i + 1 : ℕ) : ℚ) / (ts : ℚ)) * 100
      let cp2 : ℚ := if 100 < cp then 100 else cp
      let evs2 := if 0 < ts then evs ++ [cp2] else evs
      fmLoop ctx ts fuel exp2 s1.1 s2.1 (i + 1) evs2 s2.2.1 s2.2.2

/-- fibMatrix from the source: rejects n < 0, returns 0 / 1 for n = 0 / 1 with
a 100% progress event and no pool traffic, otherwise acquires the matrices res
(identity), base (Q) and tempProduct via newMat2 (12 gets, with deferred
release of 12 puts on every return path), raises Q to the power n-1 by binary
exponentiation, and returns a fresh copy of res.a. -/
def fibMatrix (ctx : ℕ → Bool) (n : ℤ) : FibResult :=
  if n < 0 then ⟨none, some GoError.invalidIndex, 0, 0, 0, []⟩
  else if n = 0 then ⟨some 0, none, 0, 0, 0, [100]⟩
  else if n = 1 then ⟨some 1, none, 0, 0, 0, [100]⟩
  else
    let exp := (n - 1).toNat
    let ts := bitLen exp
    match fmLoop ctx ts ts exp 1 qMat 0 [] 12 0 with
    | (none, evs, i, g, p) => ⟨none, some GoError.cancelled, g, p + 12, i, evs⟩
    | (some r, evs, i, g, p) => ⟨some r.a, none, g, p + 12, i, evs ++ [100]⟩

/-- Loop of fibIterative: with rem + 1 iterations remaining the Go loop index
is i = n - rem (i runs from 2 to n).  Each iteration polls the context,
computes currentFib = a + b, shifts a = b, b = currentFib, and sends the
percentage (i-1)/(n-1)*100, forced to exactly 100 when i = n. -/
def fiLoop (ctx : ℕ → Bool) (n : ℕ) :
    ℕ → ℤ → ℤ → List ℚ → ℕ → Option (ℤ × ℤ) × List ℚ × ℕ
  | 0, a, b, evs, it => (some (a, b), evs, it)
  | rem + 1, a, b, evs, it =>
    if ctx it then (none, evs, it)
    else
      let i := n - rem
      let cur : ℤ := a + b
      let pct : ℚ :=
        if i = n then 100 else (((i - 1 : ℕ) : ℚ) / ((n - 1 : ℕ) : ℚ)) * 100
      fiLoop ctx n rem b cur (evs ++ [pct]) (it + 1)

/-- fibIterative from the source: rejects n < 0, returns 0 / 1 for n = 0 / 1
with a 100% progress event and no pool traffic, otherwise acquires a, b and
currentFib (3 gets with deferred puts that run on every return path), iterates
the addition loop from 2 to n, sends a final 100% event (the n > 1 guard holds
on this path) and returns a fresh copy of b. -/
def fibIterative (ctx : ℕ → Bool) (n : ℤ) : FibResult :=
  if n < 0 then ⟨none, some GoError.invalidIndex, 0, 0, 0, []⟩
  else if n = 0 then ⟨some 0, none, 0, 0, 0, [100]⟩
  else if n = 1 then ⟨some 1, none, 0, 0, 0, [100]⟩
  else
    match fiLoop ctx n.toNat (n.toNat - 1) 0 1 [] 0 with
    | (none, evs, it) => ⟨none, some GoError.cancelled, 3, 3, it, evs⟩
    | (some p, evs, it) => ⟨some p.2, none, 3, 3, it, evs ++ [100]⟩

/-- A positive math/big Float value as a dyadic rational: the value is
m * 2 ^ e.  Every value occurring in fibBinet is positive, so an unsigned
mantissa suffices.  The mantissa is kept rounded to the working precision by
roundMant after every operation, exactly as big.Float does. -/
structure GoFloat where
  m : ℕ
  e : ℤ
deriving DecidableEq, Repr

/-- Round a dyadic value m * 2 ^ e to prec mantissa bits with round-to-nearest,
ties to even: the rounding mode of big.Float used throughout the source.
sticky records whether discarded lower-order value (below the explicit
mantissa) is known to be nonzero, as produced by inexact division and square
root; exact operations pass false.  All call sites with sticky = true supply a
mantissa wider than prec, so the early return only ever sees exact values. -/
def roundMant (prec : ℕ) (m : ℕ) (e : ℤ) (sticky : Bool) : GoFloat :=
  let s := bitLen m
  if s ≤ prec then ⟨m, e⟩
  else
    let d := s - prec
    let q := m >>> d
    let r := m % 2 ^ d
    let half := 2 ^ (d - 1)
    let up : Bool := decide (half < r) || (decide (r = half) && (sticky || decide (q % 2 = 1)))
    ⟨if up then q + 1 else q, e + d⟩

/-- big.Float multiplication at precision prec: the exact product, rounded. -/
def gfMul (prec : ℕ) (x y : GoFloat) : GoFloat :=
  roundMant prec (x.m * y.m) (x.e + y.e) false

/-- big.Float addition at precision prec: mantissas aligned to the smaller
exponent, the exact sum, rounded. -/
def gfAdd (prec : ℕ) (x y : GoFloat) : GoFloat :=
  if x.e ≤ y.e then roundMant prec (x.m + y.m * 2 ^ (y.e - x.e).toNat) x.e false
  else roundMant prec (x.m * 2 ^ (x.e - y.e).toNat + y.m) y.e false

/-- big.Float division at precision prec (correctly rounded): the numerator is
widened by k extra bits so the integer quotient has more than prec bits, and
the remainder feeds the sticky bit. -/
def gfQuo (prec : ℕ) (x y : GoFloat) : GoFloat :=
  let k := prec + bitLen y.m + 3
  let num := x.m * 2 ^ k
  roundMant prec (num / y.m) (x.e - y.e - k) (num % y.m != 0)

/-- One step of the bit-by-bit integer square root: try setting bit b of the
accumulator, keeping it when the square still does not exceed v. -/
def sqrtAux (v : ℕ) : ℕ → ℕ → ℕ
  | 0, acc => acc
  | b + 1, acc =>
    let c := acc + 2 ^ b
    if c * c ≤ v then sqrtAux v b c else sqrtAux v b acc

/-- Integer square root (floor), structurally recursive so it is
kernel-evaluable; bitLen v candidate bits always suffice. -/
def floorSqrt (v : ℕ) : ℕ := sqrtAux v (bitLen v) 0

/-- big.Float square root of the exact value 5 at precision prec (correctly
rounded): sqrt5.SetUint64(5); sqrt5.Sqrt(sqrt5) in the source.  Computed as
the floor square root of 5 shifted by 2*(prec+3) bits, with the inexactness
feeding the sticky bit. -/
def gfSqrt5 (prec : ℕ) : GoFloat :=
  let k := prec + 3
  let v := 5 * 4 ^ k
  let s := floorSqrt v
  roundMant prec s (-(k : ℤ)) (s * s != v)

/-- Truncation of a positive big.Float toward zero, as big.Float.Int. -/
def gfTrunc (x : GoFloat) : ℕ :=
  if 0 ≤ x.e then x.m * 2 ^ x.e.toNat else x.m / 2 ^ (-x.e).toNat

/-- Working precision chosen by fibBinet:
prec = uint(float64(n) * math.Log2(phi) + 20) with phi = (1+math.Sqrt(5))/2
computed in float64.  Modelled with the fixed rational
0.6942419136306173 = log2(phi) rounded to 16 decimal digits, which agrees with
the float64 computation on every index this development evaluates (the
fractional parts are far from integer boundaries, so sub-ulp float64 error
cannot change the truncation). -/
def precFor (n : ℕ) : ℕ :=
  (n * 6942419136306173 + 20 * 10 ^ 16) / 10 ^ 16

/-- Loop of fibBinet: binary exponentiation of phi over big.Float.  The Go
loop index i runs from 0 to numBitsInN - 1; fuel = numBitsInN - i is the
number of iterations left.  Each iteration polls the context, multiplies
phiToN by base when bit i of the exponent n is set, squares base, and sends
the percentage (i+1)/numBitsInN*100.  The first component is none when a poll
observed cancellation. -/
def binetLoop (ctx : ℕ → Bool) (prec nb n : ℕ) :
    ℕ → ℕ → GoFloat → GoFloat → List ℚ → ℕ → Option GoFloat × List ℚ × ℕ
  | 0, _, phiToN, _, evs, it => (some phiToN, evs, it)
  | fuel + 1, i, phiToN, base, evs, it =>
    if ctx it then (none, evs, it)
    else
      let phiToN2 := if (n >>> i) &&& 1 = 1 then gfMul prec phiToN base else phiToN
      let base2 := gfMul prec base base
      binetLoop ctx prec nb n fuel (i + 1) phiToN2 base2
        (evs ++ [(((i + 1 : ℕ) : ℚ) / (nb : ℚ)) * 100]) (it + 1)

/-- fibBinet from the source: rejects n < 0, returns n for n ≤ 1 with a 100%
progress event, otherwise computes sqrt5 and phi = (1 + sqrt5)/2 at the
dynamically chosen precision, raises phi to the n-th power by binary
exponentiation over the bits of n, divides by sqrt5, adds 0.5 and truncates
toward zero.  It never touches the big.Int pool (gets = puts = 0). -/
def fibBinet (ctx : ℕ → Bool) (n : ℤ) : FibResult :=
  if n < 0 then ⟨none, some GoError.invalidIndex, 0, 0, 0, []⟩
  else if n ≤ 1 then ⟨some n, none, 0, 0, 0, [100]⟩
  else
    let m := n.toNat
    let prec := precFor m
    let sqrt5 := gfSqrt5 prec
    let phi := gfQuo prec (gfAdd prec ⟨1, 0⟩ sqrt5) ⟨2, 0⟩
    let nb := bitLen m
    match binetLoop ctx prec nb m nb 0 ⟨1, 0⟩ phi [] 0 with
    | (none, evs, it) => ⟨none, some GoError.cancelled, 0, 0, it, evs⟩
    | (some p, evs, it) =>
      let q := gfAdd prec (gfQuo prec p sqrt5) ⟨1, -1⟩
      ⟨some (gfTrunc q : ℤ), none, 0, 0, it, evs ++ [100]⟩

/-- The result struct from the source: task name, computed value (none models
a nil pointer), elapsed duration (time.Duration is an int64 nanosecond count)
and the error slot. -/
structure result where
  name : String
  value : Option ℤ
  duration : ℤ
  err : Option GoError
deriving DecidableEq, Repr

/-- The comparison closure passed to sort.Slice in collectAndDisplayResults:
i sorts before j when i succeeded and j failed; j sorts before i when i failed
and j succeeded; otherwise the shorter duration sorts first. -/
def goLess (x y : result) : Prop :=
  (x.err = none ∧ y.err ≠ none) ∨ ((x.err = none ↔ y.err = none) ∧ x.duration < y.duration)

/-- The non-strict ordering induced by goLess; sort.Slice guarantees that in
the sorted slice no earlier element is goLess-greater than a later one, which
is exactly pairwise resLe. -/
def resLe (x y : result) : Prop :=
  (x.err = none ∧ y.err ≠ none) ∨ ((x.err = none ↔ y.err = none) ∧ x.duration ≤ y.duration)

instance : DecidableRel resLe := fun x y => by
  unfold resLe; exact inferInstance

instance : IsTotal result resLe := by
  constructor
  intro x y
  by_cases hx : x.err = none <;> by_cases hy : y.err = none
  · rcases le_total x.duration y.duration with h | h
    · exact Or.inl (Or.inr ⟨by simp [hx, hy], h⟩)
    · exact Or.inr (Or.inr ⟨by simp [hx, hy], h⟩)
  · exact Or.inl (Or.inl ⟨hx, hy⟩)
  · exact Or.inr (Or.inl ⟨hy, hx⟩)
  · rcases le_total x.duration y.duration with h | h
    · exact Or.inl (Or.inr ⟨by simp [hx, hy], h⟩)
    · exact Or.inr (Or.inr ⟨by simp [hx, hy], h⟩)

instance : IsTrans result resLe := by
  constructor
  intro x y z hxy hyz
  rcases hxy with ⟨hx, hy⟩ | ⟨hxy, dxy⟩
  · rcases hyz with ⟨hy2, _⟩ | ⟨hyz, _⟩
    · exact absurd hy2 hy
    · exact Or.inl ⟨hx, fun hz => hy (hyz.mpr hz)⟩
  · rcases hyz with ⟨hy, hz⟩ | ⟨hyz, dyz⟩
    · exact Or.inl ⟨hxy.mpr hy, hz⟩
    · exact Or.inr ⟨hxy.trans hyz, dxy.trans dyz⟩

/-- The sorting step of collectAndDisplayResults: sort.Slice with the goLess
closure, modelled as a sort producing a permutation that is pairwise resLe
(successes first, then within each group ascending duration). -/
def sortResults (rs : List result) : List result :=
  List.insertionSort resLe rs

/-- Successful outcome as the cross-validation loop classifies it: no error
and a non-nil value. -/
def isSuccess (r : result) : Bool :=
  r.err.isNone && r.value.isSome

/-- One step of the cross-validation loop of collectAndDisplayResults over the
sorted results.  State: (firstSuccessfulResult, allValidResultsIdentical,
successfulResultsCount).  A result with an error is skipped; a successful one
is counted, becomes the representative when none is set yet, and otherwise
clears the flag when its value differs from the representative value. -/
def cvStep (st : Option result × Bool × ℕ) (r : result) : Option result × Bool × ℕ :=
  if r.err.isSome then st
  else
    match r.value with
    | none => st
    | some _ =>
      match st.1 with
      | none => (some r, st.2.1, st.2.2 + 1)
      | some f => (some f, st.2.1 && decide (r.value = f.value), st.2.2 + 1)

/-- The cross-validation pass of collectAndDisplayResults: fold cvStep over
the (sorted) results, starting with no representative, flag true, count 0. -/
def crossValidate (rs : List result) : Option result × Bool × ℕ :=
  rs.foldl cvStep (none, true, 0)

/-- A demonstration outcome collection used to instantiate the reconciler
theorem: two successes (out of duration order) and one cancelled failure. -/
def demoResults : List result :=
  [⟨"Iterative", some 6765, 30, none⟩,
   ⟨"Binet", none, 20, some GoError.cancelled⟩,
   ⟨"Fast Doubling", some 6765, 10, none⟩]

lemma bitLenAux_zero (f : ℕ) : bitLenAux f 0 = 0 := by
  cases f <;> rfl

lemma bitLenAux_irrel : ∀ f g n : ℕ, n ≤ f → n ≤ g → bitLenAux f n = bitLenAux g n := by
  intro f
  induction f with
  | zero =>
    intro g n hf _
    interval_cases n
    simp [bitLenAux_zero]
  | succ f ih =>
    intro g n hf hg
    match n, g with
    | 0, g => simp [bitLenAux_zero]
    | k + 1, g + 1 =>
      show bitLenAux f ((k + 1) / 2) + 1 = bitLenAux g ((k + 1) / 2) + 1
      have hlt : (k + 1) / 2 < k + 1 := Nat.div_lt_self (Nat.succ_pos k) one_lt_two
      rw [ih g ((k + 1) / 2) (by omega) (by omega)]

lemma bitLen_div2 (n : ℕ) (h : 0 < n) : bitLen n = bitLen (n / 2) + 1 := by
  obtain ⟨k, rfl⟩ : ∃ k, n = k + 1 := ⟨n - 1, by omega⟩
  show bitLenAux k ((k + 1) / 2) + 1 = _
  have hlt : (k + 1) / 2 < k + 1 := Nat.div_lt_self (Nat.succ_pos k) one_lt_two
  rw [bitLenAux_irrel k ((k + 1) / 2) ((k + 1) / 2) (by omega) le_rfl]
  rfl

lemma bitLen_pos (n : ℕ) (h : 0 < n) : 0 < bitLen n := by
  rw [bitLen_div2 n h]; omega

lemma lt_two_pow_bitLen (n : ℕ) : n < 2 ^ bitLen n := by
  induction n using Nat.strong_induction_on with
  | _ n ih =>
    rcases Nat.eq_zero_or_pos n with rfl | hn
    · simp [bitLen, bitLenAux_zero]
    · rw [bitLen_div2 n hn, pow_succ]
      have h2 : n / 2 < n := Nat.div_lt_self hn one_lt_two
      have := ih (n / 2) h2
      omega

lemma two_pow_bitLen_pred_le (n : ℕ) (h : 0 < n) : 2 ^ (bitLen n - 1) ≤ n := by
  induction n using Nat.strong_induction_on with
  | _ n ih =>
    rcases Nat.lt_or_ge n 2 with hn | hn
    · interval_cases n
      decide
    · have hpos : 0 < n := by omega
      have hhalf : 0 < n / 2 := by omega
      have h2 : n / 2 < n := Nat.div_lt_self hpos one_lt_two
      have hb := bitLen_pos (n / 2) hhalf
      have := ih (n / 2) h2 hhalf
      rw [bitLen_div2 n hpos]
      have : 2 ^ (bitLen (n / 2) + 1 - 1) = 2 * 2 ^ (bitLen (n / 2) - 1) := by
        rw [Nat.add_sub_cancel]
        conv_lhs => rw [← Nat.sub_add_cancel hb]
        rw [pow_succ]
        ring
      rw [this]
      omega

lemma shiftRight_bitLen (n : ℕ) : n >>> bitLen n = 0 := by
  rw [Nat.shiftRight_eq_div_pow]
  exact Nat.div_eq_of_lt (lt_two_pow_bitLen n)

lemma bitLen_eq_log (n : ℕ) (h : 0 < n) : bitLen n = Nat.log 2 n + 1 := by
  have hb := bitLen_pos n h
  have hlog : Nat.log 2 n = bitLen n - 1 :=
    Nat.log_eq_of_pow_le_of_lt_pow (two_pow_bitLen_pred_le n h)
      (by rw [Nat.sub_add_cancel hb]; exact lt_two_pow_bitLen n)
  omega

lemma fibZ_two_mul (k : ℕ) :
    (Nat.fib (2 * k) : ℤ) = (Nat.fib k : ℤ) * (2 * (Nat.fib (k + 1) : ℤ) - (Nat.fib k : ℤ)) := by
  have h : Nat.fib k ≤ 2 * Nat.fib (k + 1) :=
    le_trans Nat.fib_le_fib_succ (by omega)
  rw [Nat.fib_two_mul]
  push_cast [h]
  ring

lemma fibZ_two_mul_add_one (k : ℕ) :
    (Nat.fib (2 * k + 1) : ℤ) =
      (Nat.fib k : ℤ) * (Nat.fib k : ℤ) + (Nat.fib (k + 1) : ℤ) * (Nat.fib (k + 1) : ℤ) := by
  rw [Nat.fib_two_mul_add_one]
  push_cast
  ring

lemma fdLoop_run (m tb : ℕ) :
    ∀ (rem : ℕ) (a b : ℤ) (evs : List ℚ) (it : ℕ),
      a = (Nat.fib (m >>> rem) : ℤ) → b = (Nat.fib (m >>> rem + 1) : ℤ) →
      fdLoop bgCtx m tb rem a b evs it =
        (some ((Nat.fib m : ℤ), (Nat.fib (m + 1) : ℤ)),
         evs ++ (List.range rem).reverse.map
           (fun i => (((tb - i : ℕ) : ℚ) / (tb : ℚ)) * 100),
         it + rem) := by
  intro rem
  induction rem with
  | zero =>
    intro a b evs it ha hb
    rw [Nat.shiftRight_zero] at ha hb
    simp [fdLoop, ha, hb]
  | succ rem ih =>
    intro a b evs it ha hb
    have hk : m >>> (rem + 1) = (m >>> rem) / 2 := Nat.shiftRight_succ m rem
    rw [hk] at ha hb
    have hbit : (m >>> rem) &&& 1 = (m >>> rem) % 2 := Nat.and_one_is_mod (m >>> rem)
    have hstep :
        fdLoop bgCtx m tb (rem + 1) a b evs it =
          fdLoop bgCtx m tb rem
            (if (m >>> rem) &&& 1 = 1 then a * a + b * b
             else a * (2 * b - a))
            (if (m >>> rem) &&& 1 = 1 then a * (2 * b - a) + (a * a + b * b)
             else a * a + b * b)
            (evs ++ [(((tb - rem : ℕ) : ℚ) / (tb : ℚ)) * 100]) (it + 1) := by
      show (if bgCtx it = true then _ else _) = _
      rw [if_neg (by simp [bgCtx])]
      rcases Nat.mod_two_eq_zero_or_one (m >>> rem) with h2 | h2 <;>
        simp only [hbit, h2] <;> simp
    rcases Nat.mod_two_eq_zero_or_one (m >>> rem) with h2 | h2
    · have hm : m >>> rem = 2 * ((m >>> rem) / 2) := by omega
      have hm1 : m >>> rem + 1 = 2 * ((m >>> rem) / 2) + 1 := by omega
      have hva : a * (2 * b - a) = (Nat.fib (m >>> rem) : ℤ) := by
        conv_rhs => rw [hm]
        rw [fibZ_two_mul, ← ha, ← hb]
      have hvb : a * a + b * b = (Nat.fib (m >>> rem + 1) : ℤ) := by
        conv_rhs => rw [hm1]
        rw [fibZ_two_mul_add_one, ← ha, ← hb]
      rw [hstep, if_neg (by omega), if_neg (by omega), ih _ _ _ _ hva hvb,
        List.range_succ]
      simp only [List.reverse_append, List.reverse_cons, List.reverse_nil,
        List.nil_append, List.singleton_append, List.map_cons, List.append_assoc,
        List.cons_append, List.nil_append, Prod.mk.injEq]
      exact ⟨trivial, trivial, by omega⟩
    · have hm : m >>> rem = 2 * ((m >>> rem) / 2) + 1 := by omega
      have hfib2 : (Nat.fib (m >>> rem + 1) : ℤ) =
          (Nat.fib (2 * ((m >>> rem) / 2)) : ℤ) + (Nat.fib (2 * ((m >>> rem) / 2) + 1) : ℤ) := by
        have hm2 : m >>> rem + 1 = 2 * ((m >>> rem) / 2) + 2 := by omega
        rw [hm2]
        have hadd := Nat.fib_add_two (n := 2 * ((m >>> rem) / 2))
        push_cast [hadd]
        ring
      have hva : a * a + b * b = (Nat.fib (m >>> rem) : ℤ) := by
        conv_rhs => rw [hm]
        rw [fibZ_two_mul_add_one, ← ha, ← hb]
      have hvb : a * (2 * b - a) + (a * a + b * b) = (Nat.fib (m >>> rem + 1) : ℤ) := by
        rw [hfib2, fibZ_two_mul, fibZ_two_mul_add_one, ← ha, ← hb]
      rw [hstep, if_pos (by omega), if_pos (by omega), ih _ _ _ _ hva hvb,
        List.range_succ]
      simp only [List.reverse_append, List.reverse_cons, List.reverse_nil,
        List.nil_append, List.singleton_append, List.map_cons, List.append_assoc,
        List.cons_append, List.nil_append, Prod.mk.injEq]
      exact ⟨trivial, trivial, by omega⟩

lemma fibFastDoubling_le_one (ctx : ℕ → Bool) (n : ℤ) (h0 : ¬ n < 0) (h1 : n ≤ 1) :
    fibFastDoubling ctx n = ⟨some n, none, 0, 0, 0, [100]⟩ := by
  unfold fibFastDoubling
  rw [if_neg h0, if_pos h1]

lemma fibFastDoubling_two_le (n : ℤ) (h : 2 ≤ n) :
    fibFastDoubling bgCtx n =
      ⟨some (Nat.fib n.toNat : ℤ), none, 4, 4, bitLen n.toNat,
       (List.range (bitLen n.toNat)).reverse.map
         (fun i => (((bitLen n.toNat - i : ℕ) : ℚ) / ((bitLen n.toNat : ℕ) : ℚ)) * 100)
         ++ [100]⟩ := by
  have hrun := fdLoop_run n.toNat (bitLen n.toNat) (bitLen n.toNat) 0 1 [] 0
    (by rw [shiftRight_bitLen]; simp)
    (by rw [shiftRight_bitLen]; simp)
  unfold fibFastDoubling
  rw [if_neg (by omega), if_neg (by omega)]
  simp only [hrun, List.nil_append, Nat.zero_add]

lemma fdLoop_cancel (ctx : ℕ → Bool) (h : ctx 0 = true) (m tb rem : ℕ) (a b : ℤ)
    (evs : List ℚ) (hrem : 0 < rem) :
    fdLoop ctx m tb rem a b evs 0 = (none, evs, 0) := by
  obtain ⟨r, rfl⟩ : ∃ r, rem = r + 1 := ⟨rem - 1, by omega⟩
  show (if ctx 0 = true then _ else _) = _
  rw [if_pos h]

lemma fibFastDoubling_cancelled (ctx : ℕ → Bool) (h : ctx 0 = true) (n : ℤ) (hn : 2 ≤ n) :
    fibFastDoubling ctx n = ⟨none, some GoError.cancelled, 4, 4, 0, []⟩ := by
  have hpos : 0 < bitLen n.toNat := bitLen_pos n.toNat (by omega)
  unfold fibFastDoubling
  rw [if_neg (by omega), if_neg (by omega)]
  simp only [fdLoop_cancel ctx h n.toNat (bitLen n.toNat) (bitLen n.toNat) 0 1 [] hpos]

lemma mat2_mul_def (x y : mat2) : x * y = (mat2.mul x y).1 := rfl

lemma qMat_pow (k : ℕ) :
    qMat ^ k =
      ⟨(Nat.fib (k + 1) : ℤ), (Nat.fib k : ℤ), (Nat.fib k : ℤ),
       (Nat.fib (k + 1) : ℤ) - (Nat.fib k : ℤ)⟩ := by
  induction k with
  | zero =>
    rw [pow_zero]
    show (⟨1, 0, 0, 1⟩ : mat2) = _
    norm_num [Nat.fib_one, Nat.fib_zero]
  | succ k ih =>
    have hadd : (Nat.fib (k + 2) : ℤ) = (Nat.fib k : ℤ) + (Nat.fib (k + 1) : ℤ) := by
      have := Nat.fib_add_two (n := k)
      push_cast [this]
      ring
    rw [pow_succ, ih, mat2_mul_def]
    simp only [mat2.mul, qMat, mat2.mk.injEq]
    refine ⟨by rw [hadd]; ring, by ring, by ring, by rw [hadd]; ring⟩

lemma fmLoop_step (ctx : ℕ → Bool) (ts fuel exp : ℕ) (res base : mat2) (i : ℕ)
    (evs : List ℚ) (g p : ℕ) (hexp : exp ≠ 0) (hc : ctx i = false) :
    fmLoop ctx ts (fuel + 1) exp res base i evs g p =
      fmLoop ctx ts fuel (exp / 2)
        (if exp % 2 = 1 then res * base else res)
        (if 0 < exp / 2 then base * base else base)
        (i + 1)
        (if 0 < ts then
          evs ++ [if 100 < (((i + 1 : ℕ) : ℚ) / (ts : ℚ)) * 100 then 100
                  else (((i + 1 : ℕ) : ℚ) / (ts : ℚ)) * 100]
         else evs)
        ((if exp % 2 = 1 then g + 12 else g) + (if 0 < exp / 2 then 12 else 0))
        ((if exp % 2 = 1 then p + 12 else p) + (if 0 < exp / 2 then 12 else 0)) := by
  show (if exp = 0 then _ else _) = _
  rw [if_neg hexp]
  show (if ctx i = true then _ else _) = _
  rw [if_neg (by simp [hc])]
  rcases Nat.mod_two_eq_zero_or_one exp with h2 | h2 <;>
    rcases Nat.eq_zero_or_pos (exp / 2) with h3 | h3 <;>
      simp [h2, h3, mat2_mul_def, mat2.mul]

lemma fmLoop_run (ts : ℕ) (hts : 0 < ts) :
    ∀ (fuel exp : ℕ), exp < 2 ^ fuel →
    ∀ (res base : mat2) (i : ℕ) (evs : List ℚ) (g p : ℕ),
      ((fmLoop bgCtx ts fuel exp res base i evs g p).1 = some (res * base ^ exp)) ∧
      ((fmLoop bgCtx ts fuel exp res base i evs g p).2.1 =
        evs ++ (List.range (bitLen exp)).map
          (fun j => if 100 < (((i + j + 1 : ℕ) : ℚ) / (ts : ℚ)) * 100 then 100
                    else (((i + j + 1 : ℕ) : ℚ) / (ts : ℚ)) * 100)) ∧
      ((fmLoop bgCtx ts fuel exp res base i evs g p).2.2.1 = i + bitLen exp) := by
  intro fuel
  induction fuel with
  | zero =>
    intro exp hexp res base i evs g p
    have : exp = 0 := by simpa using hexp
    subst this
    simp [fmLoop, bitLen, bitLenAux_zero]
  | succ fuel ih =>
    intro exp hexp res base i evs g p
    rcases Nat.eq_zero_or_pos exp with rfl | hpos
    · show ((if (0 : ℕ) = 0 then _ else _ : Option mat2 × List ℚ × ℕ × ℕ × ℕ).1 = _) ∧ _
      simp [fmLoop, bitLen, bitLenAux_zero]
    · have hexp2 : exp / 2 < 2 ^ fuel := by
        have := Nat.pow_succ 2 fuel
        omega
      have hbl : bitLen exp = bitLen (exp / 2) + 1 := bitLen_div2 exp hpos
      rw [fmLoop_step bgCtx ts fuel exp res base i evs g p (by omega) (by simp [bgCtx])]
      obtain ⟨ih1, ih2, ih3⟩ := ih (exp / 2) hexp2
        (if exp % 2 = 1 then res * base else res)
        (if 0 < exp / 2 then base * base else base)
        (i + 1)
        (evs ++ [if 100 < (((i + 1 : ℕ) : ℚ) / (ts : ℚ)) * 100 then 100
                 else (((i + 1 : ℕ) : ℚ) / (ts : ℚ)) * 100])
        ((if exp % 2 = 1 then g + 12 else g) + (if 0 < exp / 2 then 12 else 0))
        ((if exp % 2 = 1 then p + 12 else p) + (if 0 < exp / 2 then 12 else 0))
      rw [if_pos hts]
      refine ⟨?_, ?_, ?_⟩
      · rw [ih1]
        congr 1
        rcases Nat.eq_zero_or_pos (exp / 2) with h3 | h3
        · have hone : exp = 1 := by omega
          subst hone
          simp [pow_one, pow_zero, mul_one]
        · rw [if_pos h3]
          have hsq : base * base = base ^ 2 := (sq base).symm
          rcases Nat.mod_two_eq_zero_or_one exp with h2 | h2
          · have hexp_eq : exp = 2 * (exp / 2) := by omega
            rw [if_neg (by omega), hsq, ← pow_mul]
            rw [← hexp_eq]
          · have hexp_eq : exp = 2 * (exp / 2) + 1 := by omega
            rw [if_pos h2, hsq, ← pow_mul]
            conv_rhs => rw [hexp_eq]
            rw [pow_succ']
            rw [mul_assoc]
      · rw [ih2, hbl, List.range_succ_eq_map, List.map_cons, List.map_map,
          List.append_assoc, List.singleton_append]
        have htail : List.map
            (fun j => if 100 < (((i + 1 + j + 1 : ℕ) : ℚ) / (ts : ℚ)) * 100 then (100 : ℚ)
                      else (((i + 1 + j + 1 : ℕ) : ℚ) / (ts : ℚ)) * 100)
            (List.range (bitLen (exp / 2))) =
          List.map
            ((fun j => if 100 < (((i + j + 1 : ℕ) : ℚ) / (ts : ℚ)) * 100 then (100 : ℚ)
                       else (((i + j + 1 : ℕ) : ℚ) / (ts : ℚ)) * 100) ∘ Nat.succ)
            (List.range (bitLen (exp / 2))) := by
          refine List.map_congr_left fun j hj => ?_
          have h : i + 1 + j + 1 = i + (j + 1) + 1 := by omega
          simp only [Function.comp_apply, Nat.succ_eq_add_one, h]
        rw [htail]
      · rw [ih3, hbl]
        omega

lemma fmLoop_counts (ctx : ℕ → Bool) (ts : ℕ) :
    ∀ (fuel exp : ℕ) (res base : mat2) (i : ℕ) (evs : List ℚ) (g p : ℕ),
      (fmLoop ctx ts fuel exp res base i evs g p).2.2.2.1 + p =
      (fmLoop ctx ts fuel exp res base i evs g p).2.2.2.2 + g := by
  intro fuel
  induction fuel with
  | zero =>
    intro exp res base i evs g p
    show g + p = p + g
    omega
  | succ fuel ih =>
    intro exp res base i evs g p
    rcases Nat.eq_zero_or_pos exp with rfl | hpos
    · show ((if (0 : ℕ) = 0 then _ else _ : Option mat2 × List ℚ × ℕ × ℕ × ℕ)).2.2.2.1 + p = _
      rw [if_pos rfl]
      show g + p = p + g
      omega
    · rcases hc : ctx i with hcf | hct
      · rw [fmLoop_step ctx ts fuel exp res base i evs g p (by omega) hc]
        have h := ih (exp / 2)
          (if exp % 2 = 1 then res * base else res)
          (if 0 < exp / 2 then base * base else base)
          (i + 1)
          (if 0 < ts then
            evs ++ [if 100 < (((i + 1 : ℕ) : ℚ) / (ts : ℚ)) * 100 then 100
                    else (((i + 1 : ℕ) : ℚ) / (ts : ℚ)) * 100]
           else evs)
          ((if exp % 2 = 1 then g + 12 else g) + (if 0 < exp / 2 then 12 else 0))
          ((if exp % 2 = 1 then p + 12 else p) + (if 0 < exp / 2 then 12 else 0))
        rcases Nat.mod_two_eq_zero_or_one exp with h2 | h2 <;>
          rcases Nat.eq_zero_or_pos (exp / 2) with h3 | h3 <;>
            (simp [h2, h3] at h ⊢; omega)
      · have hstop : fmLoop ctx ts (fuel + 1) exp res base i evs g p = (none, evs, i, g, p) := by
          show (if exp = 0 then _ else _) = _
          rw [if_neg (by omega)]
          show (if ctx i = true then _ else _) = _
          rw [if_pos hc]
        rw [hstop]
        show g + p = p + g
        omega

lemma fmLoop_cancel (ctx : ℕ → Bool) (h : ctx 0 = true) (ts fuel exp : ℕ)
    (res base : mat2) (evs : List ℚ) (g p : ℕ) (hf : 0 < fuel) (he : 0 < exp) :
    fmLoop ctx ts fuel exp res base 0 evs g p = (none, evs, 0, g, p) := by
  obtain ⟨f, rfl⟩ : ∃ f, fuel = f + 1 := ⟨fuel - 1, by omega⟩
  show (if exp = 0 then _ else _) = _
  rw [if_neg (by omega)]
  show (if ctx 0 = true then _ else _) = _
  rw [if_pos h]

lemma fibMatrix_zero (ctx : ℕ → Bool) :
    fibMatrix ctx 0 = ⟨some 0, none, 0, 0, 0, [100]⟩ := by
  unfold fibMatrix
  rw [if_neg (by omega), if_pos rfl]

lemma fibMatrix_one (ctx : ℕ → Bool) :
    fibMatrix ctx 1 = ⟨some 1, none, 0, 0, 0, [100]⟩ := by
  unfold fibMatrix
  rw [if_neg (by omega), if_neg (by omega), if_pos rfl]

lemma fibMatrix_two_le (n : ℤ) (h : 2 ≤ n) :
    (fibMatrix bgCtx n).value = some (Nat.fib n.toNat : ℤ) ∧
    (fibMatrix bgCtx n).err = none ∧
    (fibMatrix bgCtx n).iters = bitLen (n - 1).toNat ∧
    (fibMatrix bgCtx n).gets = (fibMatrix bgCtx n).puts ∧
    (fibMatrix bgCtx n).events =
      (List.range (bitLen (n - 1).toNat)).map
        (fun j => if 100 < (((0 + j + 1 : ℕ) : ℚ) / ((bitLen (n - 1).toNat : ℕ) : ℚ)) * 100
                  then 100
                  else (((0 + j + 1 : ℕ) : ℚ) / ((bitLen (n - 1).toNat : ℕ) : ℚ)) * 100)
        ++ [100] := by
  have hts : 0 < bitLen (n - 1).toNat := bitLen_pos _ (by omega)
  have hlt : (n - 1).toNat < 2 ^ bitLen (n - 1).toNat := lt_two_pow_bitLen _
  obtain ⟨h1, h2, h3⟩ :=
    fmLoop_run (bitLen (n - 1).toNat) hts (bitLen (n - 1).toNat) (n - 1).toNat hlt
      1 qMat 0 [] 12 0
  have hcounts :=
    fmLoop_counts bgCtx (bitLen (n - 1).toNat) (bitLen (n - 1).toNat) (n - 1).toNat
      1 qMat 0 [] 12 0
  rcases hfm : fmLoop bgCtx (bitLen (n - 1).toNat) (bitLen (n - 1).toNat) (n - 1).toNat
      1 qMat 0 [] 12 0 with ⟨o, evs2, i2, g2, p2⟩
  rw [hfm] at h1 h2 h3 hcounts
  simp only [one_mul] at h1
  have ha : (qMat ^ (n.toNat - 1)).a = (Nat.fib n.toNat : ℤ) := by
    have hn : n.toNat - 1 + 1 = n.toNat := by omega
    rw [qMat_pow]
    show (Nat.fib (n.toNat - 1 + 1) : ℤ) = _
    rw [hn]
  change g2 + 0 = p2 + 12 at hcounts
  change i2 = 0 + bitLen (n - 1).toNat at h3
  change evs2 = [] ++ _ at h2
  unfold fibMatrix
  rw [if_neg (by omega), if_neg (by omega), if_neg (by omega)]
  simp only [hfm, h1]
  refine ⟨?_, ?_, ?_, ?_, ?_⟩
  · simp [ha]
  · trivial
  · simpa using h3
  · show g2 = p2 + 12
    omega
  · show evs2 ++ [100] = _
    rw [h2, List.nil_append]

lemma fibMatrix_cancelled (ctx : ℕ → Bool) (h : ctx 0 = true) (n : ℤ) (hn : 2 ≤ n) :
    fibMatrix ctx n = ⟨none, some GoError.cancelled, 12, 12, 0, []⟩ := by
  have hexp : 0 < (n - 1).toNat := by omega
  have hts : 0 < bitLen (n - 1).toNat := bitLen_pos _ hexp
  unfold fibMatrix
  rw [if_neg (by omega), if_neg (by omega), if_neg (by omega)]
  simp only [fmLoop_cancel ctx h (bitLen (n - 1).toNat) (bitLen (n - 1).toNat)
    (n - 1).toNat 1 qMat [] 12 0 hts hexp]

lemma fiLoop_run (n : ℕ) (hn : 2 ≤ n) :
    ∀ rem, rem ≤ n - 1 → ∀ (a b : ℤ) (evs : List ℚ) (it : ℕ),
      fiLoop bgCtx n rem a b evs it =
        (some ((fun p : ℤ × ℤ => (p.2, p.1 + p.2))^[rem] (a, b)),
         evs ++ (List.range rem).map
           (fun j => if n - rem + 1 + j = n then (100 : ℚ)
                     else (((n - rem + 1 + j - 1 : ℕ) : ℚ) / ((n - 1 : ℕ) : ℚ)) * 100),
         it + rem) := by
  intro rem
  induction rem with
  | zero =>
    intro hrem a b evs it
    simp [fiLoop]
  | succ rem ih =>
    intro hrem a b evs it
    have hstep :
        fiLoop bgCtx n (rem + 1) a b evs it =
          fiLoop bgCtx n rem b (a + b)
            (evs ++ [if n - rem = n then (100 : ℚ)
                     else (((n - rem - 1 : ℕ) : ℚ) / ((n - 1 : ℕ) : ℚ)) * 100]) (it + 1) := by
      show (if bgCtx it = true then _ else _) = _
      rw [if_neg (by simp [bgCtx])]
    rw [hstep, ih (by omega) b (a + b) _ (it + 1)]
    simp only [Prod.mk.injEq]
    refine ⟨?_, ?_, ?_⟩
    · rw [Function.iterate_succ_apply]
    · rw [List.range_succ_eq_map, List.map_cons, List.map_map,
        List.append_assoc, List.singleton_append]
      have hhead : (n - (rem + 1) + 1 + 0 : ℕ) = n - rem := by omega
      have htail : List.map
          (fun j => if n - rem + 1 + j = n then (100 : ℚ)
                    else (((n - rem + 1 + j - 1 : ℕ) : ℚ) / ((n - 1 : ℕ) : ℚ)) * 100)
          (List.range rem) =
        List.map
          ((fun j => if n - (rem + 1) + 1 + j = n then (100 : ℚ)
                     else (((n - (rem + 1) + 1 + j - 1 : ℕ) : ℚ) / ((n - 1 : ℕ) : ℚ)) * 100)
            ∘ Nat.succ)
          (List.range rem) := by
        refine List.map_congr_left fun j hj => ?_
        have h1 : n - (rem + 1) + 1 + (j + 1) = n - rem + 1 + j := by omega
        simp only [Function.comp_apply, Nat.succ_eq_add_one, h1]
      rw [htail]
      congr 2
      rw [hhead]
    · omega

lemma iterate_fib (r k : ℕ) :
    (fun p : ℤ × ℤ => (p.2, p.1 + p.2))^[r] ((Nat.fib k : ℤ), (Nat.fib (k + 1) : ℤ)) =
      ((Nat.fib (k + r) : ℤ), (Nat.fib (k + r + 1) : ℤ)) := by
  induction r generalizing k with
  | zero => simp
  | succ r ih =>
    rw [Function.iterate_succ_apply]
    have hsum : (Nat.fib k : ℤ) + (Nat.fib (k + 1) : ℤ) = (Nat.fib (k + 2) : ℤ) := by
      have := Nat.fib_add_two (n := k)
      push_cast [this]
      ring
    show (fun p : ℤ × ℤ => (p.2, p.1 + p.2))^[r]
        ((Nat.fib (k + 1) : ℤ), (Nat.fib k : ℤ) + (Nat.fib (k + 1) : ℤ)) = _
    rw [hsum, ih (k + 1)]
    have h1 : k + 1 + r = k + (r + 1) := by omega
    rw [h1]

lemma fibIterative_zero (ctx : ℕ → Bool) :
    fibIterative ctx 0 = ⟨some 0, none, 0, 0, 0, [100]⟩ := by
  unfold fibIterative
  rw [if_neg (by omega), if_pos rfl]

lemma fibIterative_one (ctx : ℕ → Bool) :
    fibIterative ctx 1 = ⟨some 1, none, 0, 0, 0, [100]⟩ := by
  unfold fibIterative
  rw [if_neg (by omega), if_neg (by omega), if_pos rfl]

lemma fibIterative_two_le (n : ℤ) (h : 2 ≤ n) :
    fibIterative bgCtx n =
      ⟨some (Nat.fib n.toNat : ℤ), none, 3, 3, n.toNat - 1,
       (List.range (n.toNat - 1)).map
         (fun j => if n.toNat - (n.toNat - 1) + 1 + j = n.toNat then (100 : ℚ)
                   else (((n.toNat - (n.toNat - 1) + 1 + j - 1 : ℕ) : ℚ)
                         / ((n.toNat - 1 : ℕ) : ℚ)) * 100)
       ++ [100]⟩ := by
  have hrun := fiLoop_run n.toNat (by omega) (n.toNat - 1) le_rfl 0 1 [] 0
  have hiter := iterate_fib (n.toNat - 1) 0
  simp only [Nat.zero_add, Nat.fib_zero, Nat.fib_one] at hiter
  push_cast at hiter
  rw [hiter] at hrun
  have hn1 : n.toNat - 1 + 1 = n.toNat := by omega
  rw [hn1] at hrun
  unfold fibIterative
  rw [if_neg (by omega), if_neg (by omega), if_neg (by omega)]
  simp only [hrun, List.nil_append, Nat.zero_add]

lemma fibIterative_cancelled (ctx : ℕ → Bool) (hc : ctx 0 = true) (n : ℤ) (hn : 2 ≤ n) :
    fibIterative ctx n = ⟨none, some GoError.cancelled, 3, 3, 0, []⟩ := by
  obtain ⟨r, hr⟩ : ∃ r, n.toNat - 1 = r + 1 := ⟨n.toNat - 2, by omega⟩
  unfold fibIterative
  rw [if_neg (by omega), if_neg (by omega), if_neg (by omega), hr]
  have hstop : fiLoop ctx n.toNat (r + 1) 0 1 [] 0 = (none, [], 0) := by
    show (if ctx 0 = true then _ else _) = _
    rw [if_pos hc]
  simp only [hstop]

lemma binetLoop_run (prec nb m : ℕ) :
    ∀ (fuel i : ℕ) (x y : GoFloat) (evs : List ℚ) (it : ℕ),
      (∃ v, (binetLoop bgCtx prec nb m fuel i x y evs it).1 = some v) ∧
      (binetLoop bgCtx prec nb m fuel i x y evs it).2.1 =
        evs ++ (List.range fuel).map
          (fun j => (((i + j + 1 : ℕ) : ℚ) / (nb : ℚ)) * 100) ∧
      (binetLoop bgCtx prec nb m fuel i x y evs it).2.2 = it + fuel := by
  intro fuel
  induction fuel with
  | zero =>
    intro i x y evs it
    exact ⟨⟨x, rfl⟩, by simp [binetLoop], by simp [binetLoop]⟩
  | succ fuel ih =>
    intro i x y evs it
    have hstep :
        binetLoop bgCtx prec nb m (fuel + 1) i x y evs it =
          binetLoop bgCtx prec nb m fuel (i + 1)
            (if (m >>> i) &&& 1 = 1 then gfMul prec x y else x)
            (gfMul prec y y)
            (evs ++ [(((i + 1 : ℕ) : ℚ) / (nb : ℚ)) * 100]) (it + 1) := by
      show (if bgCtx it = true then _ else _) = _
      rw [if_neg (by simp [bgCtx])]
    obtain ⟨ih1, ih2, ih3⟩ := ih (i + 1)
      (if (m >>> i) &&& 1 = 1 then gfMul prec x y else x)
      (gfMul prec y y)
      (evs ++ [(((i + 1 : ℕ) : ℚ) / (nb : ℚ)) * 100]) (it + 1)
    rw [hstep]
    refine ⟨ih1, ?_, by rw [ih3]; omega⟩
    rw [ih2, List.range_succ_eq_map, List.map_cons, List.map_map,
      List.append_assoc, List.singleton_append]
    have htail : List.map
        (fun j => (((i + 1 + j + 1 : ℕ) : ℚ) / (nb : ℚ)) * 100)
        (List.range fuel) =
      List.map
        ((fun j => (((i + j + 1 : ℕ) : ℚ) / (nb : ℚ)) * 100) ∘ Nat.succ)
        (List.range fuel) := by
      refine List.map_congr_left fun j hj => ?_
      have h1 : i + 1 + j + 1 = i + (j + 1) + 1 := by omega
      simp only [Function.comp_apply, Nat.succ_eq_add_one, h1]
    rw [htail]

lemma fibBinet_le_one (ctx : ℕ → Bool) (n : ℤ) (h0 : ¬ n < 0) (h1 : n ≤ 1) :
    fibBinet ctx n = ⟨some n, none, 0, 0, 0, [100]⟩ := by
  unfold fibBinet
  rw [if_neg h0, if_pos h1]

lemma fibBinet_two_le (n : ℤ) (h : 2 ≤ n) :
    (fibBinet bgCtx n).err = none ∧
    (fibBinet bgCtx n).value ≠ none ∧
    (fibBinet bgCtx n).events =
      (List.range (bitLen n.toNat)).map
        (fun j => (((0 + j + 1 : ℕ) : ℚ) / ((bitLen n.toNat : ℕ) : ℚ)) * 100) ++ [100] ∧
    (fibBinet bgCtx n).iters = bitLen n.toNat ∧
    (fibBinet bgCtx n).gets = 0 ∧
    (fibBinet bgCtx n).puts = 0 := by
  obtain ⟨⟨v, hv⟩, h2, h3⟩ := binetLoop_run (precFor n.toNat) (bitLen n.toNat) n.toNat
    (bitLen n.toNat) 0 ⟨1, 0⟩
    (gfQuo (precFor n.toNat) (gfAdd (precFor n.toNat) ⟨1, 0⟩ (gfSqrt5 (precFor n.toNat)))
      ⟨2, 0⟩) [] 0
  rcases hbl : binetLoop bgCtx (precFor n.toNat) (bitLen n.toNat) n.toNat
      (bitLen n.toNat) 0 ⟨1, 0⟩
      (gfQuo (precFor n.toNat) (gfAdd (precFor n.toNat) ⟨1, 0⟩ (gfSqrt5 (precFor n.toNat)))
        ⟨2, 0⟩) [] 0 with ⟨o, evs2, it2⟩
  rw [hbl] at hv h2 h3
  change o = some v at hv
  change evs2 = [] ++ _ at h2
  change it2 = 0 + bitLen n.toNat at h3
  unfold fibBinet
  rw [if_neg (by omega), if_neg (by omega)]
  simp only [hbl, hv]
  refine ⟨trivial, by simp, ?_, by simpa using h3, trivial, trivial⟩
  show evs2 ++ [100] = _
  rw [h2, List.nil_append]

lemma fibBinet_cancelled (ctx : ℕ → Bool) (hc : ctx 0 = true) (n : ℤ) (hn : 2 ≤ n) :
    fibBinet ctx n = ⟨none, some GoError.cancelled, 0, 0, 0, []⟩ := by
  obtain ⟨f, hf⟩ : ∃ f, bitLen n.toNat = f + 1 :=
    ⟨bitLen n.toNat - 1, by have := bitLen_pos n.toNat (by omega); omega⟩
  unfold fibBinet
  rw [if_neg (by omega), if_neg (by omega)]
  dsimp only
  rw [hf]
  have hstop : binetLoop ctx (precFor n.toNat) (f + 1) n.toNat (f + 1) 0 ⟨1, 0⟩
      (gfQuo (precFor n.toNat) (gfAdd (precFor n.toNat) ⟨1, 0⟩ (gfSqrt5 (precFor n.toNat)))
        ⟨2, 0⟩) [] 0 = (none, [], 0) := by
    show (if ctx 0 = true then _ else _) = _
    rw [if_pos hc]
  simp only [hstop]

lemma fibFastDoubling_neg (ctx : ℕ → Bool) (n : ℤ) (h : n < 0) :
    fibFastDoubling ctx n = ⟨none, some GoError.invalidIndex, 0, 0, 0, []⟩ := by
  unfold fibFastDoubling
  rw [if_pos h]

lemma fibMatrix_neg (ctx : ℕ → Bool) (n : ℤ) (h : n < 0) :
    fibMatrix ctx n = ⟨none, some GoError.invalidIndex, 0, 0, 0, []⟩ := by
  unfold fibMatrix
  rw [if_pos h]

lemma fibBinet_neg (ctx : ℕ → Bool) (n : ℤ) (h : n < 0) :
    fibBinet ctx n = ⟨none, some GoError.invalidIndex, 0, 0, 0, []⟩ := by
  unfold fibBinet
  rw [if_pos h]

lemma fibIterative_neg (ctx : ℕ → Bool) (n : ℤ) (h : n < 0) :
    fibIterative ctx n = ⟨none, some GoError.invalidIndex, 0, 0, 0, []⟩ := by
  unfold fibIterative
  rw [if_pos h]

lemma fibFastDoubling_shape (ctx : ℕ → Bool) (n : ℤ) :
    ((fibFastDoubling ctx n).err = none ∧ (fibFastDoubling ctx n).value ≠ none) ∨
    ((fibFastDoubling ctx n).err ≠ none ∧ (fibFastDoubling ctx n).value = none) := by
  unfold fibFastDoubling
  split_ifs with h1 h2
  · right; simp
  · left; simp
  · dsimp only
    rcases hfd : fdLoop ctx n.toNat (bitLen n.toNat) (bitLen n.toNat) 0 1 [] 0
      with ⟨o, evs, it⟩
    cases o <;> simp

lemma fibMatrix_shape (ctx : ℕ → Bool) (n : ℤ) :
    ((fibMatrix ctx n).err = none ∧ (fibMatrix ctx n).value ≠ none) ∨
    ((fibMatrix ctx n).err ≠ none ∧ (fibMatrix ctx n).value = none) := by
  unfold fibMatrix
  split_ifs with h1 h2 h3
  · right; simp
  · left; simp
  · left; simp
  · dsimp only
    rcases hfm : fmLoop ctx (bitLen (n - 1).toNat) (bitLen (n - 1).toNat) (n - 1).toNat
        1 qMat 0 [] 12 0 with ⟨o, evs, i, g, p⟩
    cases o <;> simp

lemma fibBinet_shape (ctx : ℕ → Bool) (n : ℤ) :
    ((fibBinet ctx n).err = none ∧ (fibBinet ctx n).value ≠ none) ∨
    ((fibBinet ctx n).err ≠ none ∧ (fibBinet ctx n).value = none) := by
  unfold fibBinet
  split_ifs with h1 h2
  · right; simp
  · left; simp
  · dsimp only
    rcases hbl : binetLoop ctx (precFor n.toNat) (bitLen n.toNat) n.toNat
        (bitLen n.toNat) 0 ⟨1, 0⟩
        (gfQuo (precFor n.toNat) (gfAdd (precFor n.toNat) ⟨1, 0⟩
          (gfSqrt5 (precFor n.toNat))) ⟨2, 0⟩) [] 0 with ⟨o, evs, it⟩
    cases o <;> simp

lemma fibIterative_shape (ctx : ℕ → Bool) (n : ℤ) :
    ((fibIterative ctx n).err = none ∧ (fibIterative ctx n).value ≠ none) ∨
    ((fibIterative ctx n).err ≠ none ∧ (fibIterative ctx n).value = none) := by
  unfold fibIterative
  split_ifs with h1 h2 h3
  · right; simp
  · left; simp
  · left; simp
  · rcases hfi : fiLoop ctx n.toNat (n.toNat - 1) 0 1 [] 0 with ⟨o, evs, it⟩
    cases o <;> simp

lemma wf_append_100 (l : List ℚ) (hb : ∀ x ∈ l, 0 ≤ x ∧ x ≤ 100)
    (hs : List.Sorted (· ≤ ·) l) :
    (∀ x ∈ l ++ [100], 0 ≤ x ∧ x ≤ 100) ∧
    List.Sorted (· ≤ ·) (l ++ [100]) ∧
    (l ++ [100]).getLast? = some 100 := by
  refine ⟨?_, ?_, List.getLast?_concat l⟩
  · intro x hx
    rcases List.mem_append.mp hx with hx | hx
    · exact hb x hx
    · simp only [List.mem_singleton] at hx
      subst hx
      norm_num
  · rw [List.Sorted, List.pairwise_append]
    refine ⟨hs, List.pairwise_singleton _ _, ?_⟩
    intro x hx y hy
    simp only [List.mem_singleton] at hy
    subst hy
    exact (hb x hx).2

lemma fd_events_wf (tb : ℕ) :
    (∀ x ∈ (List.range tb).reverse.map
        (fun i => (((tb - i : ℕ) : ℚ) / (tb : ℚ)) * 100), 0 ≤ x ∧ x ≤ 100) ∧
    List.Sorted (· ≤ ·) ((List.range tb).reverse.map
        (fun i => (((tb - i : ℕ) : ℚ) / (tb : ℚ)) * 100)) := by
  rcases Nat.eq_zero_or_pos tb with rfl | htb
  · simp
  have htbq : (0 : ℚ) < (tb : ℚ) := by positivity
  constructor
  · intro x hx
    rcases List.mem_map.mp hx with ⟨i, hi, rfl⟩
    constructor
    · positivity
    · have h1 : ((tb - i : ℕ) : ℚ) / (tb : ℚ) ≤ 1 := by
        rw [div_le_one htbq]
        exact_mod_cast Nat.sub_le tb i
      nlinarith
  · rw [List.Sorted, List.pairwise_map, List.pairwise_reverse]
    have := List.pairwise_lt_range tb
    refine this.imp ?_
    intro i j hij
    have hsub : ((tb - j : ℕ) : ℚ) ≤ ((tb - i : ℕ) : ℚ) := by
      exact_mod_cast Nat.sub_le_sub_left (le_of_lt hij) tb
    have hdiv : ((tb - j : ℕ) : ℚ) / (tb : ℚ) ≤ ((tb - i : ℕ) : ℚ) / (tb : ℚ) :=
      div_le_div_of_nonneg_right hsub htbq.le
    nlinarith

lemma binet_events_wf (nb : ℕ) (hnb : 0 < nb) :
    (∀ x ∈ (List.range nb).map
        (fun j => (((0 + j + 1 : ℕ) : ℚ) / ((nb : ℕ) : ℚ)) * 100), 0 ≤ x ∧ x ≤ 100) ∧
    List.Sorted (· ≤ ·) ((List.range nb).map
        (fun j => (((0 + j + 1 : ℕ) : ℚ) / ((nb : ℕ) : ℚ)) * 100)) := by
  have hnbq : (0 : ℚ) < (nb : ℚ) := by positivity
  constructor
  · intro x hx
    rcases List.mem_map.mp hx with ⟨j, hj, rfl⟩
    rw [List.mem_range] at hj
    constructor
    · positivity
    · have h1 : ((0 + j + 1 : ℕ) : ℚ) / (nb : ℚ) ≤ 1 := by
        rw [div_le_one hnbq]
        exact_mod_cast by omega
      nlinarith
  · rw [List.Sorted, List.pairwise_map]
    refine (List.pairwise_lt_range nb).imp ?_
    intro i j hij
    have hle : ((0 + i + 1 : ℕ) : ℚ) ≤ ((0 + j + 1 : ℕ) : ℚ) := by
      exact_mod_cast by omega
    have hdiv := div_le_div_of_nonneg_right hle hnbq.le
    nlinarith

lemma fm_events_wf (ts k : ℕ) :
    (∀ x ∈ (List.range k).map
        (fun j => if 100 < (((0 + j + 1 : ℕ) : ℚ) / (ts : ℚ)) * 100 then (100 : ℚ)
                  else (((0 + j + 1 : ℕ) : ℚ) / (ts : ℚ)) * 100), 0 ≤ x ∧ x ≤ 100) ∧
    List.Sorted (· ≤ ·) ((List.range k).map
        (fun j => if 100 < (((0 + j + 1 : ℕ) : ℚ) / (ts : ℚ)) * 100 then (100 : ℚ)
                  else (((0 + j + 1 : ℕ) : ℚ) / (ts : ℚ)) * 100)) := by
  have hmono : ∀ i j : ℕ, i < j →
      (((0 + i + 1 : ℕ) : ℚ) / (ts : ℚ)) * 100 ≤ (((0 + j + 1 : ℕ) : ℚ) / (ts : ℚ)) * 100 := by
    intro i j hij
    have hle : ((0 + i + 1 : ℕ) : ℚ) ≤ ((0 + j + 1 : ℕ) : ℚ) := by
      exact_mod_cast by omega
    have hdiv := div_le_div_of_nonneg_right hle (by positivity : (0 : ℚ) ≤ (ts : ℚ))
    nlinarith
  constructor
  · intro x hx
    rcases List.mem_map.mp hx with ⟨j, hj, rfl⟩
    by_cases hcap : 100 < (((0 + j + 1 : ℕ) : ℚ) / (ts : ℚ)) * 100
    · rw [if_pos hcap]
      norm_num
    · rw [if_neg hcap]
      constructor
      · positivity
      · linarith [not_lt.mp hcap]
  · rw [List.Sorted, List.pairwise_map]
    refine (List.pairwise_lt_range k).imp ?_
    intro i j hij
    by_cases hcj : 100 < (((0 + j + 1 : ℕ) : ℚ) / (ts : ℚ)) * 100
    · rw [if_pos hcj]
      by_cases hci : 100 < (((0 + i + 1 : ℕ) : ℚ) / (ts : ℚ)) * 100
      · rw [if_pos hci]
      · rw [if_neg hci]
        linarith [not_lt.mp hci]
    · rw [if_neg hcj]
      by_cases hci : 100 < (((0 + i + 1 : ℕ) : ℚ) / (ts : ℚ)) * 100
      · exact absurd (lt_of_lt_of_le hci (hmono i j hij)) hcj
      · rw [if_neg hci]
        exact hmono i j hij

lemma fi_events_wf (nn : ℕ) (h : 2 ≤ nn) :
    (∀ x ∈ (List.range (nn - 1)).map
        (fun j => if nn - (nn - 1) + 1 + j = nn then (100 : ℚ)
                  else (((nn - (nn - 1) + 1 + j - 1 : ℕ) : ℚ)
                        / ((nn - 1 : ℕ) : ℚ)) * 100), 0 ≤ x ∧ x ≤ 100) ∧
    List.Sorted (· ≤ ·) ((List.range (nn - 1)).map
        (fun j => if nn - (nn - 1) + 1 + j = nn then (100 : ℚ)
                  else (((nn - (nn - 1) + 1 + j - 1 : ℕ) : ℚ)
                        / ((nn - 1 : ℕ) : ℚ)) * 100)) := by
  have hq : (0 : ℚ) < ((nn - 1 : ℕ) : ℚ) := by
    have : 1 ≤ nn - 1 := by omega
    exact_mod_cast by omega
  have hfun : (List.range (nn - 1)).map
      (fun j => if nn - (nn - 1) + 1 + j = nn then (100 : ℚ)
                else (((nn - (nn - 1) + 1 + j - 1 : ℕ) : ℚ) / ((nn - 1 : ℕ) : ℚ)) * 100) =
    (List.range (nn - 1)).map
      (fun j => if j + 2 = nn then (100 : ℚ)
                else (((j + 1 : ℕ) : ℚ) / ((nn - 1 : ℕ) : ℚ)) * 100) := by
    refine List.map_congr_left fun j hj => ?_
    have h1 : nn - (nn - 1) + 1 + j = j + 2 := by omega
    rw [h1]
    norm_num
  rw [hfun]
  have hbound : ∀ j, j < nn - 1 →
      (0 : ℚ) ≤ (if j + 2 = nn then (100 : ℚ)
                 else (((j + 1 : ℕ) : ℚ) / ((nn - 1 : ℕ) : ℚ)) * 100) ∧
      (if j + 2 = nn then (100 : ℚ)
       else (((j + 1 : ℕ) : ℚ) / ((nn - 1 : ℕ) : ℚ)) * 100) ≤ 100 := by
    intro j hj
    by_cases hc : j + 2 = nn
    · rw [if_pos hc]
      norm_num
    · rw [if_neg hc]
      have hle : ((j + 1 : ℕ) : ℚ) ≤ ((nn - 1 : ℕ) : ℚ) := by
        exact_mod_cast by omega
      have hdiv : ((j + 1 : ℕ) : ℚ) / ((nn - 1 : ℕ) : ℚ) ≤ 1 := by
        rw [div_le_one hq]
        exact hle
      constructor
      · positivity
      · nlinarith
  constructor
  · intro x hx
    rcases List.mem_map.mp hx with ⟨j, hj, rfl⟩
    rw [List.mem_range] at hj
    exact hbound j hj
  · rw [List.Sorted, List.pairwise_map]
    have hmem := List.pairwise_lt_range (nn - 1)
    have hall : ∀ x ∈ List.range (nn - 1), x < nn - 1 := by
      intro x hx
      exact List.mem_range.mp hx
    rw [List.pairwise_iff_forall_sublist]
    intro i j hsub
    have hij : i < j ∧ j < nn - 1 := by
      have h2 := List.Sublist.subset hsub
      have hi : i ∈ List.range (nn - 1) := h2 (by simp)
      have hj : j ∈ List.range (nn - 1) := h2 (by simp)
      rw [List.mem_range] at hi hj
      constructor
      · exact List.pairwise_iff_forall_sublist.mp hmem hsub
      · exact hj
    by_cases hcj : j + 2 = nn
    · rw [if_pos hcj]
      exact (hbound i (by omega)).2
    · rw [if_neg hcj]
      have hci : ¬ i + 2 = nn := by omega
      rw [if_neg hci]
      have hle : ((i + 1 : ℕ) : ℚ) ≤ ((j + 1 : ℕ) : ℚ) := by
        exact_mod_cast by omega
      have hdiv := div_le_div_of_nonneg_right hle hq.le
      nlinarith

lemma cvStep_skip (st : Option result × Bool × ℕ) (r : result) (h : isSuccess r = false) :
    cvStep st r = st := by
  unfold isSuccess at h
  unfold cvStep
  rcases hre : r.err with _ | e
  · rcases hrv : r.value with _ | v
    · simp [hre, hrv]
    · rw [hre, hrv] at h
      simp at h
  · simp [hre]

lemma cvStep_succ_none (fl : Bool) (c : ℕ) (r : result) (h : isSuccess r = true) :
    cvStep (none, fl, c) r = (some r, fl, c + 1) := by
  unfold isSuccess at h
  rw [Bool.and_eq_true, Option.isNone_iff_eq_none, Option.isSome_iff_exists] at h
  obtain ⟨he, v, hv⟩ := h
  unfold cvStep
  simp [he, hv]

lemma cvStep_succ_some (f : result) (fl : Bool) (c : ℕ) (r : result)
    (h : isSuccess r = true) :
    cvStep (some f, fl, c) r = (some f, fl && decide (r.value = f.value), c + 1) := by
  unfold isSuccess at h
  rw [Bool.and_eq_true, Option.isNone_iff_eq_none, Option.isSome_iff_exists] at h
  obtain ⟨he, v, hv⟩ := h
  unfold cvStep
  simp [he, hv]

lemma cv_first_some (l : List result) :
    ∀ (st : Option result × Bool × ℕ) (f : result), st.1 = some f →
      (List.foldl cvStep st l).1 = some f := by
  induction l with
  | nil => intro st f h; exact h
  | cons r l ih =>
    intro st f h
    rcases st with ⟨o, fl, c⟩
    change o = some f at h
    subst h
    rw [List.foldl_cons]
    rcases hs : isSuccess r with hh | hh
    · exact ih _ f (by rw [cvStep_skip _ _ hs])
    · rw [cvStep_succ_some f fl c r hs]
      exact ih _ f rfl

lemma cv_first (l : List result) :
    ∀ (fl : Bool) (c : ℕ),
      (List.foldl cvStep (none, fl, c) l).1 = l.find? isSuccess := by
  induction l with
  | nil => intro fl c; rfl
  | cons r l ih =>
    intro fl c
    rw [List.foldl_cons]
    rcases hs : isSuccess r with hh | hh
    · rw [cvStep_skip _ _ hs, ih fl c, List.find?_cons_of_neg _ (by simp [hs])]
    · rw [cvStep_succ_none fl c r hs, List.find?_cons_of_pos _ hs]
      exact cv_first_some l _ r rfl

lemma cv_flag_some (l : List result) :
    ∀ (f : result) (fl : Bool) (c : ℕ),
      (List.foldl cvStep (some f, fl, c) l).2.1 =
        (fl && l.all (fun r => !isSuccess r || decide (r.value = f.value))) := by
  induction l with
  | nil => intro f fl c; simp
  | cons r l ih =>
    intro f fl c
    rw [List.foldl_cons, List.all_cons]
    rcases hs : isSuccess r with hh | hh
    · rw [cvStep_skip _ _ hs, ih f fl c]
      simp
    · rw [cvStep_succ_some f fl c r hs, ih f _ _]
      simp [Bool.and_assoc]

lemma cv_flag_none (l : List result) :
    ∀ (c : ℕ),
      (List.foldl cvStep (none, true, c) l).2.1 =
        (match l.find? isSuccess with
         | none => true
         | some f => l.all (fun r => !isSuccess r || decide (r.value = f.value))) := by
  induction l with
  | nil => intro c; rfl
  | cons r l ih =>
    intro c
    rw [List.foldl_cons]
    rcases hs : isSuccess r with hh | hh
    · rw [cvStep_skip _ _ hs, ih c, List.find?_cons_of_neg _ (by simp [hs])]
      rcases hf : l.find? isSuccess with _ | f
      · rfl
      · simp only [List.all_cons, hs]
        simp
    · rw [cvStep_succ_none true c r hs, cv_flag_some l r true (c + 1),
        List.find?_cons_of_pos _ hs]
      simp only [List.all_cons, hs, Bool.true_and]
      simp

/-- Claim C1: for every n >= 0, with an uncancelled context, fibFastDoubling
(which processes the bits of n from most significant to least significant with
the doubling identities, advancing one extra step on a set bit) returns exactly
the n-th Fibonacci number of the recurrence F(0)=0, F(1)=1, F(k)=F(k-1)+F(k-2)
with nil error. -/
theorem fibFastDoubling_computes_fib (n : ℤ) (h : 0 ≤ n) :
    (fibFastDoubling bgCtx n).value = some ((Nat.fib n.toNat : ℤ)) ∧
    (fibFastDoubling bgCtx n).err = none := by
  rcases le_or_lt n 1 with h1 | h1
  · rw [fibFastDoubling_le_one bgCtx n (by omega) h1]
    have h01 : n = 0 ∨ n = 1 := by omega
    rcases h01 with rfl | rfl <;> simp
  · rw [fibFastDoubling_two_le n (by omega)]
    exact ⟨rfl, rfl⟩

theorem fibFastDoubling_computes_fib_witness :
    (0 : ℤ) ≤ 10 ∧
    ((fibFastDoubling bgCtx 10).value = some ((Nat.fib (10 : ℤ).toNat : ℤ)) ∧
     (fibFastDoubling bgCtx 10).err = none) :=
  ⟨by decide, fibFastDoubling_computes_fib 10 (by decide)⟩

/-- Claim C2: for every n >= 0, with an uncancelled context, the three
exact-arithmetic strategies fibFastDoubling, fibMatrix and fibIterative return
equal values and nil errors. -/
theorem exact_strategies_agree (n : ℤ) (h : 0 ≤ n) :
    (fibFastDoubling bgCtx n).value = (fibMatrix bgCtx n).value ∧
    (fibMatrix bgCtx n).value = (fibIterative bgCtx n).value ∧
    (fibFastDoubling bgCtx n).value = some ((Nat.fib n.toNat : ℤ)) ∧
    (fibFastDoubling bgCtx n).err = none ∧
    (fibMatrix bgCtx n).err = none ∧
    (fibIterative bgCtx n).err = none := by
  have h012 : n = 0 ∨ n = 1 ∨ 2 ≤ n := by omega
  rcases h012 with rfl | rfl | h2
  · rw [fibFastDoubling_le_one bgCtx 0 (by omega) (by omega),
      fibMatrix_zero bgCtx, fibIterative_zero bgCtx]
    simp
  · rw [fibFastDoubling_le_one bgCtx 1 (by omega) (by omega),
      fibMatrix_one bgCtx, fibIterative_one bgCtx]
    simp
  · obtain ⟨hmv, hme, _, _, _⟩ := fibMatrix_two_le n h2
    rw [fibFastDoubling_two_le n h2, fibIterative_two_le n h2, hmv, hme]
    exact ⟨rfl, rfl, rfl, rfl, rfl, rfl⟩

theorem exact_strategies_agree_witness :
    (0 : ℤ) ≤ 12 ∧
    ((fibFastDoubling bgCtx 12).value = (fibMatrix bgCtx 12).value ∧
     (fibMatrix bgCtx 12).value = (fibIterative bgCtx 12).value ∧
     (fibFastDoubling bgCtx 12).value = some ((Nat.fib (12 : ℤ).toNat : ℤ)) ∧
     (fibFastDoubling bgCtx 12).err = none ∧
     (fibMatrix bgCtx 12).err = none ∧
     (fibIterative bgCtx 12).err = none) :=
  ⟨by decide, exact_strategies_agree 12 (by decide)⟩

set_option maxRecDepth 8000 in
/-- Claim C3: for every strategy among fibFastDoubling, fibMatrix, fibBinet
and fibIterative, and every n in the table 0,1,2,7,10,20, the call with an
uncancelled context returns exactly the table value 0,1,1,13,55,6765 with nil
error; this includes the Binet closed form at the dynamically chosen big.Float
precision. -/
theorem known_values_table :
    ((fibFastDoubling bgCtx 0).value = some 0 ∧ (fibFastDoubling bgCtx 0).err = none) ∧
    ((fibFastDoubling bgCtx 1).value = some 1 ∧ (fibFastDoubling bgCtx 1).err = none) ∧
    ((fibFastDoubling bgCtx 2).value = some 1 ∧ (fibFastDoubling bgCtx 2).err = none) ∧
    ((fibFastDoubling bgCtx 7).value = some 13 ∧ (fibFastDoubling bgCtx 7).err = none) ∧
    ((fibFastDoubling bgCtx 10).value = some 55 ∧ (fibFastDoubling bgCtx 10).err = none) ∧
    ((fibFastDoubling bgCtx 20).value = some 6765 ∧ (fibFastDoubling bgCtx 20).err = none) ∧
    ((fibMatrix bgCtx 0).value = some 0 ∧ (fibMatrix bgCtx 0).err = none) ∧
    ((fibMatrix bgCtx 1).value = some 1 ∧ (fibMatrix bgCtx 1).err = none) ∧
    ((fibMatrix bgCtx 2).value = some 1 ∧ (fibMatrix bgCtx 2).err = none) ∧
    ((fibMatrix bgCtx 7).value = some 13 ∧ (fibMatrix bgCtx 7).err = none) ∧
    ((fibMatrix bgCtx 10).value = some 55 ∧ (fibMatrix bgCtx 10).err = none) ∧
    ((fibMatrix bgCtx 20).value = some 6765 ∧ (fibMatrix bgCtx 20).err = none) ∧
    ((fibBinet bgCtx 0).value = some 0 ∧ (fibBinet bgCtx 0).err = none) ∧
    ((fibBinet bgCtx 1).value = some 1 ∧ (fibBinet bgCtx 1).err = none) ∧
    ((fibBinet bgCtx 2).value = some 1 ∧ (fibBinet bgCtx 2).err = none) ∧
    ((fibBinet bgCtx 7).value = some 13 ∧ (fibBinet bgCtx 7).err = none) ∧
    ((fibBinet bgCtx 10).value = some 55 ∧ (fibBinet bgCtx 10).err = none) ∧
    ((fibBinet bgCtx 20).value = some 6765 ∧ (fibBinet bgCtx 20).err = none) ∧
    ((fibIterative bgCtx 0).value = some 0 ∧ (fibIterative bgCtx 0).err = none) ∧
    ((fibIterative bgCtx 1).value = some 1 ∧ (fibIterative bgCtx 1).err = none) ∧
    ((fibIterative bgCtx 2).value = some 1 ∧ (fibIterative bgCtx 2).err = none) ∧
    ((fibIterative bgCtx 7).value = some 13 ∧ (fibIterative bgCtx 7).err = none) ∧
    ((fibIterative bgCtx 10).value = some 55 ∧ (fibIterative bgCtx 10).err = none) ∧
    ((fibIterative bgCtx 20).value = some 6765 ∧ (fibIterative bgCtx 20).err = none) := by
  have hfd0 : (fibFastDoubling bgCtx 0).value = some 0 ∧ (fibFastDoubling bgCtx 0).err = none := by decide
  have hfd1 : (fibFastDoubling bgCtx 1).value = some 1 ∧ (fibFastDoubling bgCtx 1).err = none := by decide
  have hfd2 : (fibFastDoubling bgCtx 2).value = some 1 ∧ (fibFastDoubling bgCtx 2).err = none := by decide
  have hfd7 : (fibFastDoubling bgCtx 7).value = some 13 ∧ (fibFastDoubling bgCtx 7).err = none := by decide
  have hfd10 : (fibFastDoubling bgCtx 10).value = some 55 ∧ (fibFastDoubling bgCtx 10).err = none := by decide
  have hfd20 : (fibFastDoubling bgCtx 20).value = some 6765 ∧ (fibFastDoubling bgCtx 20).err = none := by decide
  have hfm0 : (fibMatrix bgCtx 0).value = some 0 ∧ (fibMatrix bgCtx 0).err = none := by decide
  have hfm1 : (fibMatrix bgCtx 1).value = some 1 ∧ (fibMatrix bgCtx 1).err = none := by decide
  have hfm2 : (fibMatrix bgCtx 2).value = some 1 ∧ (fibMatrix bgCtx 2).err = none := by decide
  have hfm7 : (fibMatrix bgCtx 7).value = some 13 ∧ (fibMatrix bgCtx 7).err = none := by decide
  have hfm10 : (fibMatrix bgCtx 10).value = some 55 ∧ (fibMatrix bgCtx 10).err = none := by decide
  have hfm20 : (fibMatrix bgCtx 20).value = some 6765 ∧ (fibMatrix bgCtx 20).err = none := by decide
  have hfb0 : (fibBinet bgCtx 0).value = some 0 ∧ (fibBinet bgCtx 0).err = none := by decide
  have hfb1 : (fibBinet bgCtx 1).value = some 1 ∧ (fibBinet bgCtx 1).err = none := by decide
  have hfb2 : (fibBinet bgCtx 2).value = some 1 ∧ (fibBinet bgCtx 2).err = none := by decide
  have hfb7 : (fibBinet bgCtx 7).value = some 13 ∧ (fibBinet bgCtx 7).err = none := by decide
  have hfb10 : (fibBinet bgCtx 10).value = some 55 ∧ (fibBinet bgCtx 10).err = none := by decide
  have hfb20 : (fibBinet bgCtx 20).value = some 6765 ∧ (fibBinet bgCtx 20).err = none := by decide
  have hfi0 : (fibIterative bgCtx 0).value = some 0 ∧ (fibIterative bgCtx 0).err = none := by decide
  have hfi1 : (fibIterative bgCtx 1).value = some 1 ∧ (fibIterative bgCtx 1).err = none := by decide
  have hfi2 : (fibIterative bgCtx 2).value = some 1 ∧ (fibIterative bgCtx 2).err = none := by decide
  have hfi7 : (fibIterative bgCtx 7).value = some 13 ∧ (fibIterative bgCtx 7).err = none := by decide
  have hfi10 : (fibIterative bgCtx 10).value = some 55 ∧ (fibIterative bgCtx 10).err = none := by decide
  have hfi20 : (fibIterative bgCtx 20).value = some 6765 ∧ (fibIterative bgCtx 20).err = none := by decide
  exact ⟨hfd0, hfd1, hfd2, hfd7, hfd10, hfd20, hfm0, hfm1, hfm2, hfm7, hfm10, hfm20,
    hfb0, hfb1, hfb2, hfb7, hfb10, hfb20, hfi0, hfi1, hfi2, hfi7, hfi10, hfi20⟩

/-- Claim C4 counterexample: at n = 2, the fibFastDoubling main loop executes
2 iterations (one per bit of n), not ceil(log2 2) = 1, so the claimed
iteration count fails at powers of two. -/
theorem fastDoubling_iter_count_counterexample :
    (fibFastDoubling bgCtx 2).iters ≠ Nat.clog 2 2 := by
  have h2 : (fibFastDoubling bgCtx 2).iters = 2 := by decide
  have hc : Nat.clog 2 2 = 1 := Nat.clog_eq_one (by norm_num) (by norm_num)
  omega

/-- Claim C4 (amended): for every n >= 2, with an uncancelled context, the
fibFastDoubling main loop executes exactly floor(log2 n) + 1 iterations, the
number of bits of n, each performing the constant number of big-integer
multiplications of the doubling step. -/
theorem fastDoubling_iter_count (n : ℤ) (h : 2 ≤ n) :
    (fibFastDoubling bgCtx n).iters = Nat.log 2 n.toNat + 1 := by
  rw [fibFastDoubling_two_le n h]
  show bitLen n.toNat = _
  exact bitLen_eq_log n.toNat (by omega)

theorem fastDoubling_iter_count_witness :
    (2 : ℤ) ≤ 5 ∧ (fibFastDoubling bgCtx 5).iters = Nat.log 2 (5 : ℤ).toNat + 1 :=
  ⟨by decide, fastDoubling_iter_count 5 (by decide)⟩

/-- Claim C5: for every context and every index, each pool-using strategy
invocation (fibFastDoubling, fibMatrix including every mat2.mul call inside
it, fibIterative) releases exactly as many cells as it acquired on every
return path: normal completion, invalid-index rejection, or cancellation. -/
theorem pool_balance (ctx : ℕ → Bool) (n : ℤ) :
    (fibFastDoubling ctx n).gets = (fibFastDoubling ctx n).puts ∧
    (fibMatrix ctx n).gets = (fibMatrix ctx n).puts ∧
    (fibIterative ctx n).gets = (fibIterative ctx n).puts := by
  refine ⟨?_, ?_, ?_⟩
  · unfold fibFastDoubling
    split_ifs with h1 h2
    · rfl
    · rfl
    · dsimp only
      rcases hfd : fdLoop ctx n.toNat (bitLen n.toNat) (bitLen n.toNat) 0 1 [] 0
        with ⟨o, evs, it⟩
      cases o <;> rfl
  · unfold fibMatrix
    split_ifs with h1 h2 h3
    · rfl
    · rfl
    · rfl
    · dsimp only
      have hc := fmLoop_counts ctx (bitLen (n - 1).toNat) (bitLen (n - 1).toNat)
        (n - 1).toNat 1 qMat 0 [] 12 0
      rcases hfm : fmLoop ctx (bitLen (n - 1).toNat) (bitLen (n - 1).toNat) (n - 1).toNat
          1 qMat 0 [] 12 0 with ⟨o, evs, i, g, p⟩
      rw [hfm] at hc
      change g + 0 = p + 12 at hc
      cases o <;> (show g = p + 12; omega)
  · unfold fibIterative
    split_ifs with h1 h2 h3
    · rfl
    · rfl
    · rfl
    · rcases hfi : fiLoop ctx n.toNat (n.toNat - 1) 0 1 [] 0 with ⟨o, evs, it⟩
      cases o <;> rfl

/-- Claim C6: for every n >= 2 and a context already cancelled before the main
loop starts, each of the four strategies observes the cancellation at its
first loop-iteration boundary (zero completed iterations) and returns a nil
value with the context cancellation error instead of completing. -/
theorem precancelled_returns_cancelled (ctx : ℕ → Bool) (hc : ctx 0 = true)
    (n : ℤ) (h : 2 ≤ n) :
    ((fibFastDoubling ctx n).value = none ∧
     (fibFastDoubling ctx n).err = some GoError.cancelled ∧
     (fibFastDoubling ctx n).iters = 0) ∧
    ((fibMatrix ctx n).value = none ∧
     (fibMatrix ctx n).err = some GoError.cancelled ∧
     (fibMatrix ctx n).iters = 0) ∧
    ((fibBinet ctx n).value = none ∧
     (fibBinet ctx n).err = some GoError.cancelled ∧
     (fibBinet ctx n).iters = 0) ∧
    ((fibIterative ctx n).value = none ∧
     (fibIterative ctx n).err = some GoError.cancelled ∧
     (fibIterative ctx n).iters = 0) := by
  rw [fibFastDoubling_cancelled ctx hc n h, fibMatrix_cancelled ctx hc n h,
    fibBinet_cancelled ctx hc n h, fibIterative_cancelled ctx hc n h]
  exact ⟨⟨rfl, rfl, rfl⟩, ⟨rfl, rfl, rfl⟩, ⟨rfl, rfl, rfl⟩, ⟨rfl, rfl, rfl⟩⟩

theorem precancelled_returns_cancelled_witness :
    doneCtx 0 = true ∧ (2 : ℤ) ≤ 2 ∧
    (fibFastDoubling doneCtx 2).err = some GoError.cancelled :=
  ⟨by decide, by decide,
   (precancelled_returns_cancelled doneCtx (by decide) 2 (by decide)).1.2.1⟩

/-- Claim C7: for every n < 0 and any context, each of the four strategies
fails with the invalid-index error and returns no value, with zero pool
acquisitions and zero loop iterations (rejection before any arithmetic). -/
theorem negative_index_rejected (ctx : ℕ → Bool) (n : ℤ) (h : n < 0) :
    ((fibFastDoubling ctx n).value = none ∧
     (fibFastDoubling ctx n).err = some GoError.invalidIndex ∧
     (fibFastDoubling ctx n).gets = 0 ∧ (fibFastDoubling ctx n).iters = 0) ∧
    ((fibMatrix ctx n).value = none ∧
     (fibMatrix ctx n).err = some GoError.invalidIndex ∧
     (fibMatrix ctx n).gets = 0 ∧ (fibMatrix ctx n).iters = 0) ∧
    ((fibBinet ctx n).value = none ∧
     (fibBinet ctx n).err = some GoError.invalidIndex ∧
     (fibBinet ctx n).gets = 0 ∧ (fibBinet ctx n).iters = 0) ∧
    ((fibIterative ctx n).value = none ∧
     (fibIterative ctx n).err = some GoError.invalidIndex ∧
     (fibIterative ctx n).gets = 0 ∧ (fibIterative ctx n).iters = 0) := by
  rw [fibFastDoubling_neg ctx n h, fibMatrix_neg ctx n h, fibBinet_neg ctx n h,
    fibIterative_neg ctx n h]
  exact ⟨⟨rfl, rfl, rfl, rfl⟩, ⟨rfl, rfl, rfl, rfl⟩, ⟨rfl, rfl, rfl, rfl⟩,
    ⟨rfl, rfl, rfl, rfl⟩⟩

theorem negative_index_rejected_witness :
    (-1 : ℤ) < 0 ∧ (fibFastDoubling bgCtx (-1)).err = some GoError.invalidIndex :=
  ⟨by decide, (negative_index_rejected bgCtx (-1) (by decide)).1.2.1⟩

/-- Claim C10: for every strategy, every context and every index, exactly one
of the two results is present: the error is nil exactly when the returned
value is non-nil. -/
theorem value_xor_error (ctx : ℕ → Bool) (n : ℤ) :
    (((fibFastDoubling ctx n).err = none ∧ (fibFastDoubling ctx n).value ≠ none) ∨
     ((fibFastDoubling ctx n).err ≠ none ∧ (fibFastDoubling ctx n).value = none)) ∧
    (((fibMatrix ctx n).err = none ∧ (fibMatrix ctx n).value ≠ none) ∨
     ((fibMatrix ctx n).err ≠ none ∧ (fibMatrix ctx n).value = none)) ∧
    (((fibBinet ctx n).err = none ∧ (fibBinet ctx n).value ≠ none) ∨
     ((fibBinet ctx n).err ≠ none ∧ (fibBinet ctx n).value = none)) ∧
    (((fibIterative ctx n).err = none ∧ (fibIterative ctx n).value ≠ none) ∨
     ((fibIterative ctx n).err ≠ none ∧ (fibIterative ctx n).value = none)) :=
  ⟨fibFastDoubling_shape ctx n, fibMatrix_shape ctx n, fibBinet_shape ctx n,
   fibIterative_shape ctx n⟩

/-- Claim C8: for every collection of outcomes, the reconciler sort places all
successful outcomes before all failed outcomes and orders each group by
ascending duration; the representative is the first successful outcome after
sorting, and the all-identical flag is true exactly when every successful
outcome value equals the representative value. -/
theorem reconciler_spec (rs : List result) :
    (sortResults rs).Perm rs ∧
    List.Pairwise (fun x y => (y.err = none → x.err = none) ∧
      ((x.err = none ↔ y.err = none) → x.duration ≤ y.duration)) (sortResults rs) ∧
    (crossValidate (sortResults rs)).1 = (sortResults rs).find? isSuccess ∧
    (∀ rep, (crossValidate (sortResults rs)).1 = some rep →
      ((crossValidate (sortResults rs)).2.1 = true ↔
        ∀ r ∈ sortResults rs, isSuccess r = true → r.value = rep.value)) := by
  refine ⟨List.perm_insertionSort resLe rs, ?_, ?_, ?_⟩
  · have hs := List.sorted_insertionSort resLe rs
    refine hs.imp ?_
    intro x y hxy
    rcases hxy with ⟨hx, hy⟩ | ⟨hiff, hd⟩
    · exact ⟨fun _ => hx, fun hiff2 => absurd (hiff2.mp hx) hy⟩
    · exact ⟨fun hy => hiff.mpr hy, fun _ => hd⟩
  · exact cv_first (sortResults rs) true 0
  · intro rep hrep
    have hfind : (sortResults rs).find? isSuccess = some rep := by
      rw [← cv_first (sortResults rs) true 0]
      exact hrep
    have hflag := cv_flag_none (sortResults rs) 0
    rw [hfind] at hflag
    change (crossValidate (sortResults rs)).2.1 = _ at hflag
    rw [hflag]
    constructor
    · intro hall r hr hsr
      have hx := List.all_eq_true.mp hall r hr
      rw [hsr] at hx
      simpa using hx
    · intro hall
      refine List.all_eq_true.mpr ?_
      intro r hr
      cases hsr : isSuccess r
      · simp
      · have := hall r hr hsr
        simp [this]

theorem reconciler_spec_witness :
    (crossValidate (sortResults demoResults)).2.1 = true := by
  have h := (reconciler_spec demoResults).2.2.2
    ⟨"Fast Doubling", some 6765, 10, none⟩ (by decide)
  exact h.mpr (by decide)

/-- Claim C9: for every n >= 0 and an uncancelled context (a run that
completes successfully) with a non-nil progress channel, each strategy emits
percentages within the interval from 0 to 100, monotonically non-decreasing,
ending with a final value of 100. -/
theorem progress_events_wellformed (n : ℤ) (h : 0 ≤ n) :
    ((∀ x ∈ (fibFastDoubling bgCtx n).events, 0 ≤ x ∧ x ≤ 100) ∧
     List.Sorted (· ≤ ·) (fibFastDoubling bgCtx n).events ∧
     (fibFastDoubling bgCtx n).events.getLast? = some 100) ∧
    ((∀ x ∈ (fibMatrix bgCtx n).events, 0 ≤ x ∧ x ≤ 100) ∧
     List.Sorted (· ≤ ·) (fibMatrix bgCtx n).events ∧
     (fibMatrix bgCtx n).events.getLast? = some 100) ∧
    ((∀ x ∈ (fibBinet bgCtx n).events, 0 ≤ x ∧ x ≤ 100) ∧
     List.Sorted (· ≤ ·) (fibBinet bgCtx n).events ∧
     (fibBinet bgCtx n).events.getLast? = some 100) ∧
    ((∀ x ∈ (fibIterative bgCtx n).events, 0 ≤ x ∧ x ≤ 100) ∧
     List.Sorted (· ≤ ·) (fibIterative bgCtx n).events ∧
     (fibIterative bgCtx n).events.getLast? = some 100) := by
  have wf : (∀ x ∈ ([100] : List ℚ), 0 ≤ x ∧ x ≤ 100) ∧
      List.Sorted (· ≤ ·) ([100] : List ℚ) ∧
      ([100] : List ℚ).getLast? = some 100 := by
    refine ⟨?_, List.sorted_singleton 100, rfl⟩
    intro x hx
    simp only [List.mem_singleton] at hx
    subst hx
    norm_num
  rcases le_or_lt n 1 with h1 | h1
  · have h01 : n = 0 ∨ n = 1 := by omega
    rcases h01 with rfl | rfl
    · rw [fibFastDoubling_le_one bgCtx 0 (by omega) (by omega), fibMatrix_zero bgCtx,
        fibBinet_le_one bgCtx 0 (by omega) (by omega), fibIterative_zero bgCtx]
      exact ⟨wf, wf, wf, wf⟩
    · rw [fibFastDoubling_le_one bgCtx 1 (by omega) (by omega), fibMatrix_one bgCtx,
        fibBinet_le_one bgCtx 1 (by omega) (by omega), fibIterative_one bgCtx]
      exact ⟨wf, wf, wf, wf⟩
  · refine ⟨?_, ?_, ?_, ?_⟩
    · rw [fibFastDoubling_two_le n (by omega)]
      have hwf := fd_events_wf (bitLen n.toNat)
      exact wf_append_100 _ hwf.1 hwf.2
    · obtain ⟨_, _, _, _, hev⟩ := fibMatrix_two_le n (by omega)
      rw [hev]
      have hwf := fm_events_wf (bitLen (n - 1).toNat) (bitLen (n - 1).toNat)
      exact wf_append_100 _ hwf.1 hwf.2
    · obtain ⟨_, _, hev, _, _, _⟩ := fibBinet_two_le n (by omega)
      rw [hev]
      have hwf := binet_events_wf (bitLen n.toNat) (bitLen_pos n.toNat (by omega))
      exact wf_append_100 _ hwf.1 hwf.2
    · rw [fibIterative_two_le n (by omega)]
      have hwf := fi_events_wf n.toNat (by omega)
      exact wf_append_100 _ hwf.1 hwf.2

theorem progress_events_wellformed_witness :
    (0 : ℤ) ≤ 3 ∧ (fibFastDoubling bgCtx 3).events.getLast? = some 100 :=
  ⟨by decide, (progress_events_wellformed 3 (by decide)).1.2.2⟩
